import Mathlib

/-!
Shallow embedding of the constrained monotonic sequence generator
(`src/frontend/generate_sequence.py`) over exact rational arithmetic,
together with theorems settling the specification's claims about it.
-/

/-- The two validation failures `generate_sequence` can raise:
`ValueError("Sequence length must be at least 3")` and
`ValueError("Index ... is out of bounds ...")`. -/
inductive SeqError where
  | invalidLength : SeqError
  | indexOutOfRange : SeqError
deriving DecidableEq

/-- The two return shapes of `generate_sequence`: the full list, or the
`(value, delta)` pair when `ith` is supplied. -/
inductive SeqResult where
  | full : List ℚ → SeqResult
  | query : ℚ → ℚ → SeqResult
deriving DecidableEq

/-- Lines 63-70 of the source: the coefficients `(a, b)` of the pinned-mode
quadratic, including the fallback branch for a zero denominator. -/
def pinnedCoeffs (n : ℕ) (start firstDelta end_ : ℚ) : ℚ × ℚ :=
  let denominator : ℤ := ((n : ℤ) - 1) * ((n : ℤ) - 2)
  if denominator = 0 then
    (0, firstDelta)
  else
    let a := (end_ - start - firstDelta * ((n : ℚ) - 1)) / (denominator : ℚ)
    (a, firstDelta - a)

/-- Lines 28-75 of the source: the list built before boundary re-assertion.
Natural mode maps `i ↦ start + (end - start) * (i/(n-1))^2`; pinned mode maps
`i ↦ a*i^2 + b*i + c` with `c = start` and `(a, b) = pinnedCoeffs`. -/
def rawSeq (n : ℕ) (start : ℚ) (firstDelta : Option ℚ) (end_ : ℚ) : List ℚ :=
  match firstDelta with
  | none =>
      (List.range n).map (fun (i : ℕ) => start + (end_ - start) * (((i : ℚ) / ((n : ℚ) - 1)) ^ 2))
  | some fd =>
      let ab := pinnedCoeffs n start fd end_
      (List.range n).map (fun (i : ℕ) => ab.1 * ((i : ℚ) ^ 2) + ab.2 * (i : ℚ) + start)

/-- Lines 77-81 of the source: the boundary re-assertion.  `sequence[0] = start`,
`sequence[-1] = end`, and, when `firstDelta` is present and `n > 1`,
`sequence[1] = start + firstDelta`.  Python's index `-1` is the last index
`length - 1`. -/
def reassert (seq : List ℚ) (n : ℕ) (start : ℚ) (firstDelta : Option ℚ) (end_ : ℚ) :
    List ℚ :=
  let s1 := seq.set 0 start
  let s2 := s1.set (s1.length - 1) end_
  match firstDelta with
  | some fd => if n > 1 then s2.set 1 (start + fd) else s2
  | none => s2

/-- The full sequence produced for a valid `n`: closed-form fit followed by the
boundary re-assertion (source lines 28-81). -/
def fullSeq (n : ℕ) (start : ℚ) (firstDelta : Option ℚ) (end_ : ℚ) : List ℚ :=
  reassert (rawSeq n start firstDelta end_) n start firstDelta end_

/-- The embedding of `generate_sequence` (source lines 3-96): validation of `n`,
sequence construction, and the optional `ith` element query with its own
validation and `(value, delta)` computation. -/
def generate_sequence (n : ℕ) (start : ℚ) (firstDelta : Option ℚ) (end_ : ℚ)
    (ith : Option ℤ) : Except SeqError SeqResult :=
  if n < 3 then
    Except.error SeqError.invalidLength
  else
    let sequence := fullSeq n start firstDelta end_
    match ith with
    | none => Except.ok (SeqResult.full sequence)
    | some k =>
        if k < 0 ∨ (n : ℤ) ≤ k then
          Except.error SeqError.indexOutOfRange
        else
          let value := sequence.getD k.toNat 0
          let delta :=
            if k = 0 then 0
            else sequence.getD k.toNat 0 - sequence.getD (k.toNat - 1) 0
          Except.ok (SeqResult.query value delta)

/-- Closed form of a natural-mode element (source line 34). -/
def natElem (n : ℕ) (start end_ : ℚ) (i : ℕ) : ℚ :=
  start + (end_ - start) * (((i : ℚ) / ((n : ℚ) - 1)) ^ 2)

/-- Closed form of a pinned-mode element (source line 74). -/
def pinElem (n : ℕ) (start firstDelta end_ : ℚ) (i : ℕ) : ℚ :=
  (pinnedCoeffs n start firstDelta end_).1 * ((i : ℚ) ^ 2) +
    (pinnedCoeffs n start firstDelta end_).2 * (i : ℚ) + start

theorem getD_set_self (l : List ℚ) (i : ℕ) (v : ℚ) (h : i < l.length) :
    (l.set i v).getD i 0 = v := by
  rw [List.getD_eq_getElem _ _ (by simpa using h)]
  simp

theorem getD_set_ne (l : List ℚ) (i j : ℕ) (v : ℚ) (h : i ≠ j) :
    (l.set i v).getD j 0 = l.getD j 0 := by
  by_cases hj : j < l.length
  · rw [List.getD_eq_getElem _ _ (by simpa using hj), List.getD_eq_getElem _ _ hj,
      List.getElem_set_ne h]
  · rw [List.getD_eq_default _ _ (by simpa using Nat.le_of_not_lt hj),
      List.getD_eq_default _ _ (Nat.le_of_not_lt hj)]

theorem length_rawSeq (n : ℕ) (s : ℚ) (fd : Option ℚ) (e : ℚ) :
    (rawSeq n s fd e).length = n := by
  cases fd <;> simp only [rawSeq, List.length_map, List.length_range]

theorem getD_rawSeq_none (n : ℕ) (s e : ℚ) (i : ℕ) (hi : i < n) :
    (rawSeq n s none e).getD i 0 = natElem n s e i := by
  rw [List.getD_eq_getElem _ _ (by rw [length_rawSeq]; exact hi)]
  simp only [rawSeq, natElem, List.getElem_map, List.getElem_range]

theorem getD_rawSeq_some (n : ℕ) (s d e : ℚ) (i : ℕ) (hi : i < n) :
    (rawSeq n s (some d) e).getD i 0 = pinElem n s d e i := by
  rw [List.getD_eq_getElem _ _ (by rw [length_rawSeq]; exact hi)]
  simp only [rawSeq, pinElem, List.getElem_map, List.getElem_range]

theorem natCast_pred_q (n : ℕ) (hn : 1 ≤ n) : (((n - 1 : ℕ) : ℚ)) = (n : ℚ) - 1 := by
  push_cast [hn]
  ring

/-- For `n ≥ 3`, the pinned-mode fallback branch is not taken and the
coefficients are given by the closed-form division. -/
theorem pinnedCoeffs_eq (n : ℕ) (hn : 3 ≤ n) (s d e : ℚ) :
    pinnedCoeffs n s d e =
      ((e - s - d * ((n : ℚ) - 1)) / (((n : ℚ) - 1) * ((n : ℚ) - 2)),
       d - (e - s - d * ((n : ℚ) - 1)) / (((n : ℚ) - 1) * ((n : ℚ) - 2))) := by
  have hn3 : (3 : ℤ) ≤ (n : ℤ) := by exact_mod_cast hn
  have hden : ((n : ℤ) - 1) * ((n : ℤ) - 2) ≠ 0 :=
    mul_ne_zero (by omega) (by omega)
  rw [pinnedCoeffs]
  simp only [hden, if_false]
  push_cast
  rfl

/-- The natural-mode closed form already meets the boundary constraints
(`n ≥ 2` suffices), so re-assertion does not change any element value. -/
theorem natElem_zero (n : ℕ) (s e : ℚ) : natElem n s e 0 = s := by
  simp [natElem]

theorem natElem_last (n : ℕ) (hn : 2 ≤ n) (s e : ℚ) : natElem n s e (n - 1) = e := by
  have hN : ((n : ℚ) - 1) ≠ 0 := by
    have : (2 : ℚ) ≤ (n : ℚ) := by exact_mod_cast hn
    linarith
  rw [natElem, natCast_pred_q n (by omega), div_self hN]
  ring

theorem pinElem_zero (n : ℕ) (s d e : ℚ) : pinElem n s d e 0 = s := by
  simp [pinElem]

theorem pinElem_one (n : ℕ) (s d e : ℚ) : pinElem n s d e 1 = s + d := by
  rw [pinElem, pinnedCoeffs]
  by_cases h : ((n : ℤ) - 1) * ((n : ℤ) - 2) = 0 <;> simp [h] <;> ring

theorem pinElem_last (n : ℕ) (hn : 3 ≤ n) (s d e : ℚ) : pinElem n s d e (n - 1) = e := by
  have hq : (3 : ℚ) ≤ (n : ℚ) := by exact_mod_cast hn
  have h1 : ((n : ℚ) - 1) ≠ 0 := by linarith
  have h2 : ((n : ℚ) - 2) ≠ 0 := by linarith
  rw [pinElem, pinnedCoeffs_eq n hn s d e, natCast_pred_q n (by omega)]
  field_simp
  ring

/-- Element `i` of the full pipeline output, natural mode: the closed form
survives re-assertion verbatim in exact arithmetic. -/
theorem getD_fullSeq_none (n : ℕ) (hn : 3 ≤ n) (s e : ℚ) (i : ℕ) (hi : i < n) :
    (fullSeq n s none e).getD i 0 = natElem n s e i := by
  have hlen : (((rawSeq n s none e).set 0 s).length) = n := by
    simp [length_rawSeq]
  have hstep : fullSeq n s none e = ((rawSeq n s none e).set 0 s).set (n - 1) e := by
    rw [fullSeq, reassert, hlen]
  rw [hstep]
  by_cases hlast : i = n - 1
  · subst hlast
    rw [getD_set_self _ _ _ (by rw [List.length_set, length_rawSeq]; omega),
      natElem_last n (by omega) s e]
  · rw [getD_set_ne _ _ _ _ (fun h => hlast h.symm)]
    by_cases h0 : i = 0
    · subst h0
      rw [getD_set_self _ _ _ (by rw [length_rawSeq]; omega), natElem_zero]
    · rw [getD_set_ne _ _ _ _ (fun h => h0 h.symm), getD_rawSeq_none n s e i hi]

/-- Element `i` of the full pipeline output, pinned mode: the closed form
survives re-assertion verbatim in exact arithmetic. -/
theorem getD_fullSeq_some (n : ℕ) (hn : 3 ≤ n) (s d e : ℚ) (i : ℕ) (hi : i < n) :
    (fullSeq n s (some d) e).getD i 0 = pinElem n s d e i := by
  have hlen : (((rawSeq n s (some d) e).set 0 s).length) = n := by
    simp [length_rawSeq]
  have hstep : fullSeq n s (some d) e =
      (((rawSeq n s (some d) e).set 0 s).set (n - 1) e).set 1 (s + d) := by
    rw [fullSeq, reassert, hlen]
    simp only [if_pos (by omega : n > 1)]
  rw [hstep]
  by_cases h1 : i = 1
  · subst h1
    rw [getD_set_self _ _ _ (by simp [length_rawSeq]; omega), pinElem_one]
  · rw [getD_set_ne _ _ _ _ (fun h => h1 h.symm)]
    by_cases hlast : i = n - 1
    · subst hlast
      rw [getD_set_self _ _ _ (by rw [List.length_set, length_rawSeq]; omega),
        pinElem_last n hn s d e]
    · rw [getD_set_ne _ _ _ _ (fun h => hlast h.symm)]
      by_cases h0 : i = 0
      · subst h0
        rw [getD_set_self _ _ _ (by rw [length_rawSeq]; omega), pinElem_zero]
      · rw [getD_set_ne _ _ _ _ (fun h => h0 h.symm), getD_rawSeq_some n s d e i hi]

theorem natCast_sub_q (i k : ℕ) (h : k ≤ i) : (((i - k : ℕ) : ℚ)) = (i : ℚ) - (k : ℚ) := by
  push_cast [h]
  ring

/-- C4: in pinned mode (`n ≥ 3`), the coefficients are
`a = (end - start - firstDelta*(n-1)) / ((n-1)*(n-2))`, `b = firstDelta - a`,
`c = start`, and every element `i < n` of the returned sequence equals
`a*i^2 + b*i + c`. -/
theorem c4_pinned_quadratic (n : ℕ) (s d e : ℚ) (i : ℕ) (hn : 3 ≤ n) (hi : i < n) :
    (fullSeq n s (some d) e).getD i 0 =
      (e - s - d * ((n : ℚ) - 1)) / (((n : ℚ) - 1) * ((n : ℚ) - 2)) * ((i : ℚ) ^ 2) +
        (d - (e - s - d * ((n : ℚ) - 1)) / (((n : ℚ) - 1) * ((n : ℚ) - 2))) * (i : ℚ) + s := by
  rw [getD_fullSeq_some n hn s d e i hi, pinElem, pinnedCoeffs_eq n hn s d e]

theorem c4_witness : (fullSeq 4 1 (some 1) 10).getD 2 0 = 5 := by
  have h := c4_pinned_quadratic 4 1 1 10 2 (by norm_num) (by norm_num)
  norm_num at h
  exact h

/-- C5: in natural mode (`n ≥ 3`), every element `i < n` of the returned
sequence equals `start + (end - start) * (i/(n-1))^2`; the witness checks the
spec's seed value `sequence[3] = 0.175` for `n = 7`, `start = 0`, `end = 0.7`. -/
theorem c5_natural_quadratic (n : ℕ) (s e : ℚ) (i : ℕ) (hn : 3 ≤ n) (hi : i < n) :
    (fullSeq n s none e).getD i 0 = s + (e - s) * (((i : ℚ) / ((n : ℚ) - 1)) ^ 2) := by
  rw [getD_fullSeq_none n hn s e i hi, natElem]

theorem c5_witness : (fullSeq 7 0 none (7/10)).getD 3 0 = 175/1000 := by
  rw [c5_natural_quadratic 7 0 (7/10) 3 (by norm_num) (by norm_num)]
  norm_num

/-- C6: for every `n ≥ 3` and either mode, `sequence[0] = start` and
`sequence[n-1] = end` exactly, and in pinned mode `sequence[1] = start +
firstDelta` exactly. -/
theorem c6_boundary_pinning (n : ℕ) (s e : ℚ) (fd : Option ℚ) (hn : 3 ≤ n) :
    (fullSeq n s fd e).getD 0 0 = s ∧ (fullSeq n s fd e).getD (n - 1) 0 = e ∧
      ∀ d, fd = some d → (fullSeq n s fd e).getD 1 0 = s + d := by
  cases fd with
  | none =>
      refine ⟨?_, ?_, fun d hd => by cases hd⟩
      · rw [getD_fullSeq_none n hn s e 0 (by omega), natElem_zero]
      · rw [getD_fullSeq_none n hn s e (n - 1) (by omega), natElem_last n (by omega)]
  | some d0 =>
      refine ⟨?_, ?_, fun d hd => ?_⟩
      · rw [getD_fullSeq_some n hn s d0 e 0 (by omega), pinElem_zero]
      · rw [getD_fullSeq_some n hn s d0 e (n - 1) (by omega), pinElem_last n hn]
      · injection hd with h
        subst h
        rw [getD_fullSeq_some n hn s d0 e 1 (by omega), pinElem_one]

theorem c6_witness : (fullSeq 3 0 (some 1) 4).getD 1 0 = 0 + 1 :=
  (c6_boundary_pinning 3 0 4 (some 1) (by norm_num)).2.2 1 rfl

/-- C9: for `n ≥ 3` the pinned-mode denominator `(n-1)*(n-2)` is nonzero, so
the division defining `a` is well-defined and the zero-denominator fallback
(`a = 0`, `b = firstDelta`) is not taken: the coefficients always come from the
division branch. -/
theorem c9_denominator_nonzero (n : ℕ) (s d e : ℚ) (hn : 3 ≤ n) :
    ((n : ℤ) - 1) * ((n : ℤ) - 2) ≠ 0 ∧
      pinnedCoeffs n s d e =
        ((e - s - d * ((n : ℚ) - 1)) / (((n : ℚ) - 1) * ((n : ℚ) - 2)),
         d - (e - s - d * ((n : ℚ) - 1)) / (((n : ℚ) - 1) * ((n : ℚ) - 2))) := by
  have hn3 : (3 : ℤ) ≤ (n : ℤ) := by exact_mod_cast hn
  exact ⟨mul_ne_zero (by omega) (by omega), pinnedCoeffs_eq n hn s d e⟩

theorem c9_witness : pinnedCoeffs 3 0 1 4 = (1, 0) := by
  have h := (c9_denominator_nonzero 3 0 1 4 (by norm_num)).2
  norm_num at h
  exact h

/-- C10: when both preconditions are violated at once (`n < 3` and `ith`
outside `[0, n-1]`), the length check fires first: the result is the
`InvalidLength` error, not `IndexOutOfRange`. -/
theorem c10_length_check_first (n : ℕ) (s e : ℚ) (fd : Option ℚ) (k : ℤ)
    (hn : n < 3) (hk : k < 0 ∨ (n : ℤ) ≤ k) :
    generate_sequence n s fd e (some k) = Except.error SeqError.invalidLength := by
  rw [generate_sequence, if_pos hn]

theorem c10_witness : generate_sequence 2 0 none 1 (some 5) =
    Except.error SeqError.invalidLength :=
  c10_length_check_first 2 0 1 none 5 (by norm_num) (Or.inr (by norm_num))

/-- C7: for every valid call and every `k < n`, the `ith = k` query returns
exactly element `k` of the full sequence as `value`, and `0` (for `k = 0`) or
the difference of elements `k` and `k-1` (otherwise) as `delta`. -/
theorem c7_query_equivalence (n : ℕ) (s e : ℚ) (fd : Option ℚ) (k : ℕ)
    (hn : 3 ≤ n) (hk : k < n) :
    generate_sequence n s fd e (some (k : ℤ)) =
      Except.ok (SeqResult.query ((fullSeq n s fd e).getD k 0)
        (if k = 0 then 0
         else (fullSeq n s fd e).getD k 0 - (fullSeq n s fd e).getD (k - 1) 0)) := by
  have h1 : ¬ n < 3 := by omega
  have h2 : ¬ ((k : ℤ) < 0 ∨ (n : ℤ) ≤ (k : ℤ)) := by
    push_neg
    exact ⟨Int.natCast_nonneg k, by exact_mod_cast hk⟩
  rw [generate_sequence, if_neg h1]
  simp only [if_neg h2, Int.toNat_natCast, Nat.cast_eq_zero]

theorem c7_witness : generate_sequence 3 0 none 4 (some 2) =
    Except.ok (SeqResult.query ((fullSeq 3 0 none 4).getD 2 0)
      ((fullSeq 3 0 none 4).getD 2 0 - (fullSeq 3 0 none 4).getD 1 0)) := by
  have h := c7_query_equivalence 3 0 4 none 2 (by norm_num) (by norm_num)
  simpa using h

/-- C8: `generate_sequence` fails with `InvalidLength` iff `n < 3`; it fails
with `IndexOutOfRange` iff `n ≥ 3` and `ith` is supplied outside `[0, n-1]`;
on every other input it succeeds. -/
theorem c8_error_classification (n : ℕ) (s e : ℚ) (fd : Option ℚ) (ith : Option ℤ) :
    (generate_sequence n s fd e ith = Except.error SeqError.invalidLength ↔ n < 3) ∧
      (generate_sequence n s fd e ith = Except.error SeqError.indexOutOfRange ↔
        3 ≤ n ∧ ∃ k, ith = some k ∧ (k < 0 ∨ (n : ℤ) ≤ k)) ∧
      ((3 ≤ n ∧ ∀ k, ith = some k → 0 ≤ k ∧ k < (n : ℤ)) →
        ∃ r, generate_sequence n s fd e ith = Except.ok r) := by
  by_cases hn : n < 3
  · rw [generate_sequence, if_pos hn]
    refine ⟨by simp [hn], ⟨by simp, ?_⟩, fun h => absurd h.1 (by omega)⟩
    rintro ⟨h3, -⟩
    omega
  · rw [generate_sequence, if_neg hn]
    cases ith with
    | none => simp [hn]
    | some k =>
        dsimp only
        by_cases hk : k < 0 ∨ (n : ℤ) ≤ k
        · rw [if_pos hk]
          refine ⟨by simp [hn], ⟨?_, ?_⟩, ?_⟩
          · intro _
            exact ⟨by omega, ⟨k, rfl, hk⟩⟩
          · intro _
            rfl
          · rintro ⟨-, hgood⟩
            rcases hgood k rfl with ⟨ha, hb⟩
            rcases hk with h | h
            · exact absurd ha (by omega)
            · exact absurd hb (by omega)
        · rw [if_neg hk]
          refine ⟨by simp; omega, ⟨⟨fun h => by simp at h, ?_⟩, fun _ => ⟨_, rfl⟩⟩⟩
          rintro ⟨-, k', hk', hbad⟩
          injection hk' with hkk
          subst hkk
          exact (hk hbad).elim

theorem c8_witness : generate_sequence 2 0 none 1 none =
    Except.error SeqError.invalidLength :=
  (c8_error_classification 2 0 1 none none).1.mpr (by norm_num)

theorem natElem_step (n : ℕ) (hn : 3 ≤ n) (s e : ℚ) (i : ℕ) (h1 : 1 ≤ i) :
    natElem n s e i - natElem n s e (i - 1) =
      (e - s) * (2 * (i : ℚ) - 1) / ((n : ℚ) - 1) ^ 2 := by
  have hq : (3 : ℚ) ≤ (n : ℚ) := by exact_mod_cast hn
  have hN : ((n : ℚ) - 1) ≠ 0 := by linarith
  rw [natElem, natElem, natCast_sub_q i 1 h1, Nat.cast_one]
  field_simp
  ring

theorem pinElem_step (n : ℕ) (hn : 3 ≤ n) (s d e : ℚ) (i : ℕ) (h1 : 1 ≤ i) :
    pinElem n s d e i - pinElem n s d e (i - 1) =
      d + 2 * ((e - s - d * ((n : ℚ) - 1)) / (((n : ℚ) - 1) * ((n : ℚ) - 2))) *
        ((i : ℚ) - 1) := by
  rw [pinElem, pinElem, pinnedCoeffs_eq n hn s d e, natCast_sub_q i 1 h1, Nat.cast_one]
  ring

theorem natElem_step2 (n : ℕ) (hn : 3 ≤ n) (s e : ℚ) (i : ℕ) (h2 : 2 ≤ i) :
    (natElem n s e i - natElem n s e (i - 1)) -
      (natElem n s e (i - 1) - natElem n s e (i - 2)) =
      2 * (e - s) / ((n : ℚ) - 1) ^ 2 := by
  have hq : (3 : ℚ) ≤ (n : ℚ) := by exact_mod_cast hn
  have hN : ((n : ℚ) - 1) ≠ 0 := by linarith
  rw [natElem, natElem, natElem, natCast_sub_q i 1 (by omega), natCast_sub_q i 2 h2,
    Nat.cast_one, Nat.cast_ofNat]
  field_simp
  ring

theorem pinElem_step2 (n : ℕ) (hn : 3 ≤ n) (s d e : ℚ) (i : ℕ) (h2 : 2 ≤ i) :
    (pinElem n s d e i - pinElem n s d e (i - 1)) -
      (pinElem n s d e (i - 1) - pinElem n s d e (i - 2)) =
      2 * ((e - s - d * ((n : ℚ) - 1)) / (((n : ℚ) - 1) * ((n : ℚ) - 2))) := by
  rw [pinElem, pinElem, pinElem, pinnedCoeffs_eq n hn s d e,
    natCast_sub_q i 1 (by omega), natCast_sub_q i 2 h2, Nat.cast_one, Nat.cast_ofNat]
  ring

/-- C1 counterexample: at `n = 3`, `start = 0 < end = 1`, `firstDelta = -1`
(a value the claim quantifies over), the returned sequence is not increasing
at `i = 1`: `sequence[1] = -1 < 0 = sequence[0]`. -/
theorem c1_counterexample :
    ¬ ((fullSeq 3 0 (some (-1)) 1).getD 0 0 < (fullSeq 3 0 (some (-1)) 1).getD 1 0) := by
  norm_num [fullSeq, rawSeq, reassert, pinnedCoeffs, List.range_succ]

/-- C1 (amended): for every `n ≥ 3` and `end > start`, the sequence is
strictly increasing at every `i` in `[1, n-1]` — in natural mode
unconditionally, and in pinned mode under the additional condition
`0 < firstDelta` and `firstDelta * (n-1) ≤ end - start`. -/
theorem c1_monotonicity_amended (n : ℕ) (s e : ℚ) (fd : Option ℚ) (i : ℕ)
    (hn : 3 ≤ n) (hse : s < e)
    (hfd : ∀ d, fd = some d → 0 < d ∧ d * ((n : ℚ) - 1) ≤ e - s)
    (h1 : 1 ≤ i) (h2 : i < n) :
    (fullSeq n s fd e).getD (i - 1) 0 < (fullSeq n s fd e).getD i 0 := by
  have hq : (3 : ℚ) ≤ (n : ℚ) := by exact_mod_cast hn
  have hx1 : (1 : ℚ) ≤ (i : ℚ) := by exact_mod_cast h1
  cases fd with
  | none =>
      rw [getD_fullSeq_none n hn s e i h2, getD_fullSeq_none n hn s e (i - 1) (by omega),
        ← sub_pos, natElem_step n hn s e i h1]
      exact div_pos (mul_pos (by linarith) (by linarith)) (pow_pos (by linarith) 2)
  | some d =>
      obtain ⟨hd, hbound⟩ := hfd d rfl
      have hA : 0 ≤ (e - s - d * ((n : ℚ) - 1)) / (((n : ℚ) - 1) * ((n : ℚ) - 2)) :=
        div_nonneg (by linarith) (mul_nonneg (by linarith) (by linarith))
      rw [getD_fullSeq_some n hn s d e i h2, getD_fullSeq_some n hn s d e (i - 1) (by omega),
        ← sub_pos, pinElem_step n hn s d e i h1]
      nlinarith [mul_nonneg hA (by linarith : (0 : ℚ) ≤ (i : ℚ) - 1)]

theorem c1_witness :
    (fullSeq 3 0 (some (1/4)) 1).getD 1 0 < (fullSeq 3 0 (some (1/4)) 1).getD 2 0 := by
  have h := c1_monotonicity_amended 3 0 1 (some (1/4)) 2 (by norm_num) (by norm_num)
    (fun d hd => by injection hd with hd1; subst hd1; constructor <;> norm_num)
    (by norm_num) (by norm_num)
  simpa using h

/-- C2 counterexample: at `n = 3`, `start = end = 0` in natural mode (values
the claim quantifies over), all elements are `0`, so the absolute steps are
not strictly increasing at `i = 2`. -/
theorem c2_counterexample :
    ¬ ((fullSeq 3 0 none 0).getD 1 0 - (fullSeq 3 0 none 0).getD 0 0 <
       (fullSeq 3 0 none 0).getD 2 0 - (fullSeq 3 0 none 0).getD 1 0) := by
  norm_num [fullSeq, rawSeq, reassert, List.range_succ]

/-- C2 (amended): for every `n ≥ 3`, the absolute steps strictly increase at
every `i` in `[2, n-1]` — in natural mode under the condition `end > start`,
and in pinned mode under the condition `firstDelta * (n-1) < end - start`. -/
theorem c2_increasing_steps_amended (n : ℕ) (s e : ℚ) (fd : Option ℚ) (i : ℕ)
    (hn : 3 ≤ n)
    (hnat : fd = none → s < e)
    (hpin : ∀ d, fd = some d → d * ((n : ℚ) - 1) < e - s)
    (h2 : 2 ≤ i) (hin : i < n) :
    (fullSeq n s fd e).getD (i - 1) 0 - (fullSeq n s fd e).getD (i - 2) 0 <
      (fullSeq n s fd e).getD i 0 - (fullSeq n s fd e).getD (i - 1) 0 := by
  have hq : (3 : ℚ) ≤ (n : ℚ) := by exact_mod_cast hn
  cases fd with
  | none =>
      have key := natElem_step2 n hn s e i h2
      rw [getD_fullSeq_none n hn s e i hin, getD_fullSeq_none n hn s e (i - 1) (by omega),
        getD_fullSeq_none n hn s e (i - 2) (by omega)]
      have hpos : 0 < 2 * (e - s) / ((n : ℚ) - 1) ^ 2 :=
        div_pos (by linarith [hnat rfl]) (pow_pos (by linarith) 2)
      linarith
  | some d =>
      have hb := hpin d rfl
      have key := pinElem_step2 n hn s d e i h2
      rw [getD_fullSeq_some n hn s d e i hin, getD_fullSeq_some n hn s d e (i - 1) (by omega),
        getD_fullSeq_some n hn s d e (i - 2) (by omega)]
      have hpos : 0 < (e - s - d * ((n : ℚ) - 1)) / (((n : ℚ) - 1) * ((n : ℚ) - 2)) :=
        div_pos (by linarith) (mul_pos (by linarith) (by linarith))
      linarith

theorem c2_witness :
    (fullSeq 3 0 none 1).getD 1 0 - (fullSeq 3 0 none 1).getD 0 0 <
      (fullSeq 3 0 none 1).getD 2 0 - (fullSeq 3 0 none 1).getD 1 0 := by
  have h := c2_increasing_steps_amended 3 0 1 none 2 (by norm_num)
    (fun _ => by norm_num) (fun d hd => by cases hd) (by norm_num) (by norm_num)
  simpa using h

/-- C3 counterexample: natural mode at `n = 3`, `start = 10`, `end = 11`
(values the claim quantifies over).  Both divisor elements are nonzero, yet
the relative step grows: `(seq[2]-seq[1])/seq[1] = 3/41 > 1/40 =
(seq[1]-seq[0])/seq[0]`. -/
theorem c3_counterexample :
    (fullSeq 3 10 none 11).getD 1 0 ≠ 0 ∧ (fullSeq 3 10 none 11).getD 0 0 ≠ 0 ∧
      ¬ (((fullSeq 3 10 none 11).getD 2 0 - (fullSeq 3 10 none 11).getD 1 0) /
           (fullSeq 3 10 none 11).getD 1 0 <
         ((fullSeq 3 10 none 11).getD 1 0 - (fullSeq 3 10 none 11).getD 0 0) /
           (fullSeq 3 10 none 11).getD 0 0) := by
  norm_num [fullSeq, rawSeq, reassert, List.range_succ]


/-- C3 (amended): with `start = 0` and `end > 0` — and, in pinned mode,
`0 < firstDelta` and `firstDelta * (n-1) ≤ end` — the relative steps strictly
decrease at every `i` in `[2, n-1]` where both divisor elements are nonzero. -/
theorem c3_decreasing_relative_steps_amended (n : ℕ) (e : ℚ) (fd : Option ℚ) (i : ℕ)
    (hn : 3 ≤ n) (he : 0 < e)
    (hfd : ∀ d, fd = some d → 0 < d ∧ d * ((n : ℚ) - 1) ≤ e)
    (h2 : 2 ≤ i) (hin : i < n)
    (hne1 : (fullSeq n 0 fd e).getD (i - 1) 0 ≠ 0)
    (hne2 : (fullSeq n 0 fd e).getD (i - 2) 0 ≠ 0) :
    ((fullSeq n 0 fd e).getD i 0 - (fullSeq n 0 fd e).getD (i - 1) 0) /
        (fullSeq n 0 fd e).getD (i - 1) 0 <
      ((fullSeq n 0 fd e).getD (i - 1) 0 - (fullSeq n 0 fd e).getD (i - 2) 0) /
        (fullSeq n 0 fd e).getD (i - 2) 0 := by
  have hq : (3 : ℚ) ≤ (n : ℚ) := by exact_mod_cast hn
  have hi3 : 3 ≤ i := by
    rcases Nat.lt_or_ge i 3 with hlt | hge
    · exfalso
      apply hne2
      have hi2 : i - 2 = 0 := by omega
      rw [hi2]
      cases fd with
      | none => rw [getD_fullSeq_none n hn 0 e 0 (by omega), natElem_zero]
      | some d => rw [getD_fullSeq_some n hn 0 d e 0 (by omega), pinElem_zero]
    · exact hge
  have hx3 : (3 : ℚ) ≤ (i : ℚ) := by exact_mod_cast hi3
  have hN : (0 : ℚ) < (n : ℚ) - 1 := by linarith
  cases fd with
  | none =>
      rw [getD_fullSeq_none n hn 0 e i hin, getD_fullSeq_none n hn 0 e (i - 1) (by omega),
        getD_fullSeq_none n hn 0 e (i - 2) (by omega)]
      have f0 : natElem n 0 e i = e * (1 / ((n : ℚ) - 1)) ^ 2 * (i : ℚ) ^ 2 := by
        rw [natElem]; ring
      have f1 : natElem n 0 e (i - 1) =
          e * (1 / ((n : ℚ) - 1)) ^ 2 * ((i : ℚ) - 1) ^ 2 := by
        rw [natElem, natCast_sub_q i 1 (by omega), Nat.cast_one]; ring
      have f2 : natElem n 0 e (i - 2) =
          e * (1 / ((n : ℚ) - 1)) ^ 2 * ((i : ℚ) - 2) ^ 2 := by
        rw [natElem, natCast_sub_q i 2 h2, Nat.cast_ofNat]; ring
      have hP : 0 < e * (1 / ((n : ℚ) - 1)) ^ 2 :=
        mul_pos he (pow_pos (div_pos one_pos hN) 2)
      rw [f0, f1, f2]
      generalize e * (1 / ((n : ℚ) - 1)) ^ 2 = P at hP ⊢
      have hv : 0 < P * ((i : ℚ) - 1) ^ 2 := mul_pos hP (pow_pos (by linarith) 2)
      have hw : 0 < P * ((i : ℚ) - 2) ^ 2 := mul_pos hP (pow_pos (by linarith) 2)
      have key : (2 * (i : ℚ) - 1) * ((i : ℚ) - 2) ^ 2 <
          (2 * (i : ℚ) - 3) * ((i : ℚ) - 1) ^ 2 := by
        nlinarith [hx3, sq_nonneg ((i : ℚ) - 3)]
      have hint := mul_lt_mul_of_pos_left key (mul_pos hP hP)
      rw [div_lt_div_iff hv hw]
      nlinarith [hint]
  | some d =>
      obtain ⟨hd, hb⟩ := hfd d rfl
      rw [getD_fullSeq_some n hn 0 d e i hin, getD_fullSeq_some n hn 0 d e (i - 1) (by omega),
        getD_fullSeq_some n hn 0 d e (i - 2) (by omega)]
      have g0 : ∀ j : ℕ, pinElem n 0 d e j =
          (e - 0 - d * ((n : ℚ) - 1)) / (((n : ℚ) - 1) * ((n : ℚ) - 2)) * (j : ℚ) ^ 2 +
            (d - (e - 0 - d * ((n : ℚ) - 1)) / (((n : ℚ) - 1) * ((n : ℚ) - 2))) * (j : ℚ) := by
        intro j
        rw [pinElem, pinnedCoeffs_eq n hn 0 d e]
        ring
      have hA : 0 ≤ (e - 0 - d * ((n : ℚ) - 1)) / (((n : ℚ) - 1) * ((n : ℚ) - 2)) :=
        div_nonneg (by linarith) (mul_nonneg (by linarith) (by linarith))
      rw [g0 i, g0 (i - 1), g0 (i - 2), natCast_sub_q i 1 (by omega), natCast_sub_q i 2 h2,
        Nat.cast_one, Nat.cast_ofNat]
      generalize (e - 0 - d * ((n : ℚ) - 1)) / (((n : ℚ) - 1) * ((n : ℚ) - 2)) = A at hA ⊢
      have hP2 : 0 ≤ A * ((i : ℚ) - 2) := mul_nonneg hA (by linarith)
      have hP3 : 0 ≤ A * ((i : ℚ) - 3) := mul_nonneg hA (by linarith)
      have h6 : 0 < A * ((i : ℚ) - 2) + d := by linarith
      have h8 : 0 < A * ((i : ℚ) - 3) + d := by linarith
      have hv : 0 < A * ((i : ℚ) - 1) ^ 2 + (d - A) * ((i : ℚ) - 1) := by
        have hm := mul_pos (show (0 : ℚ) < (i : ℚ) - 1 by linarith) h6
        nlinarith [hm]
      have hw : 0 < A * ((i : ℚ) - 2) ^ 2 + (d - A) * ((i : ℚ) - 2) := by
        have hm := mul_pos (show (0 : ℚ) < (i : ℚ) - 2 by linarith) h8
        nlinarith [hm]
      rw [div_lt_div_iff hv hw]
      have h7 : 0 < (A * ((i : ℚ) - 2) + d) ^ 2 := pow_pos h6 2
      have h9 : 0 ≤ A ^ 2 * (((i : ℚ) - 2) * (i : ℚ)) :=
        mul_nonneg (sq_nonneg A) (mul_nonneg (by linarith) (by linarith))
      nlinarith [h7, h9]

theorem c3_witness :
    ((fullSeq 5 0 none 1).getD 3 0 - (fullSeq 5 0 none 1).getD 2 0) /
        (fullSeq 5 0 none 1).getD 2 0 <
      ((fullSeq 5 0 none 1).getD 2 0 - (fullSeq 5 0 none 1).getD 1 0) /
        (fullSeq 5 0 none 1).getD 1 0 := by
  have h := c3_decreasing_relative_steps_amended 5 1 none 3 (by norm_num) (by norm_num)
    (fun d hd => by cases hd) (by norm_num) (by norm_num)
    (by norm_num [fullSeq, rawSeq, reassert, List.range_succ])
    (by norm_num [fullSeq, rawSeq, reassert, List.range_succ])
  simpa using h
